import Mathlib

/-!
Verification development for the `swearfilter` Go package
(`swearfilter.go`): a normalization-and-matching engine that detects
banned tokens inside user text after defeating leet-speak, diacritics,
whitespace tricks and zero-width characters.

Modelling conventions.
* A Go string is modelled as a `List Nat` of Unicode code points
  ("runes").  Go's byte-level `strings.Contains` / `strings.ReplaceAll`
  on valid UTF-8 data coincide with rune-level scanning because UTF-8 is
  self-synchronizing, so all scanning is done at the rune level.
* The byte length of the UTF-8 encoding, which the source uses to size
  the normalization buffer (`make([]byte, len(message))`), is modelled
  by `utf8Len`.
* `Check` returns `(trippedWords, err)` in Go; here it returns
  `Option (List (List Nat)) × Bool` where the first component is `none`
  exactly when Go returns a nil slice and the second component is the
  error flag.
-/

/-- Modelled from the spec: Go's `unicode.ToLower` simple case mapping
(used by `strings.ToLower`), restricted to the code points exercised in
this development — ASCII, the Latin-1 letters, Ÿ, İ, Greek capitals and
the Kelvin sign — and the identity elsewhere. -/
def goToLower (c : Nat) : Nat :=
  if 0x41 ≤ c ∧ c ≤ 0x5A then c + 0x20
  else if (0xC0 ≤ c ∧ c ≤ 0xDE) ∧ c ≠ 0xD7 then c + 0x20
  else if c = 0x178 then 0xFF
  else if c = 0x130 then 0x69
  else if (0x391 ≤ c ∧ c ≤ 0x3A9) ∧ c ≠ 0x3A2 then c + 0x20
  else if c = 0x212A then 0x6B
  else c

/-- Modelled from the spec: Go's `unicode.ToUpper` simple case mapping
(used by `strings.ToUpper`), restricted to the code points exercised in
this development — ASCII, µ (U+00B5 ↦ U+039C), the Latin-1 letters,
ÿ, dotless ı (U+0131 ↦ I), long s (U+017F ↦ S) and Greek smalls — and
the identity elsewhere.  Note U+00DF (ß) has no simple uppercase
mapping and is left unchanged, as in Go. -/
def goToUpper (c : Nat) : Nat :=
  if 0x61 ≤ c ∧ c ≤ 0x7A then c - 0x20
  else if c = 0xB5 then 0x39C
  else if (0xE0 ≤ c ∧ c ≤ 0xFE) ∧ c ≠ 0xF7 then c - 0x20
  else if c = 0xFF then 0x178
  else if c = 0x131 then 0x49
  else if c = 0x17F then 0x53
  else if (0x3B1 ≤ c ∧ c ≤ 0x3C9) ∧ c ≠ 0x3C2 then c - 0x20
  else if c = 0x3C2 then 0x3A3
  else c

/-- The `multiCharLeet` table of the source, in source listing order
(Go iterates the map in unspecified order; the table is curated so that
the result of applying all rules does not depend on the order).
Patterns and replacements are rune lists:
`"vv"↦"w"`, `"uu"↦"w"`, `"\/\/"↦"w"`, `"><"↦"x"`, `"1<"↦"k"`,
`"|<"↦"k"`, `"()"↦"o"`, `"[]"↦"o"`, `"ph"↦"f"`. -/
def multiCharLeet : List (List Nat × List Nat) :=
  [([118, 118], [119]),
   ([117, 117], [119]),
   ([92, 47, 92, 47], [119]),
   ([62, 60], [120]),
   ([49, 60], [107]),
   ([124, 60], [107]),
   ([40, 41], [111]),
   ([91, 93], [111]),
   ([112, 104], [102])]

/-- The `leetChars` single-character table of the source, in source
listing order: `4↦a, @↦a, 8↦b, (↦c, <↦c, [↦c, 3↦e, €↦e, 6↦g, 9↦g,
#↦h, j↦i, 0↦o, 5↦s, $↦s, 7↦t, +↦t, v↦u, 2↦z`. -/
def leetChars : List (List Nat × List Nat) :=
  [([52], [97]),
   ([64], [97]),
   ([56], [98]),
   ([40], [99]),
   ([60], [99]),
   ([91], [99]),
   ([51], [101]),
   ([0x20AC], [101]),
   ([54], [103]),
   ([57], [103]),
   ([35], [104]),
   ([106], [105]),
   ([48], [111]),
   ([53], [115]),
   ([36], [115]),
   ([55], [116]),
   ([43], [116]),
   ([118], [117]),
   ([50], [122])]

/-- The `ambiguousLeetMap` table of the source, in source listing
order: each of `! | 1 ] }` may stand for `i` or `l`. -/
def ambiguousLeetMap : List (List Nat × List (List Nat)) :=
  [([33], [[105], [108]]),
   ([124], [[105], [108]]),
   ([49], [[105], [108]]),
   ([93], [[105], [108]]),
   ([125], [[105], [108]])]

/-- Fuel-driven worker for `replaceAll`; the fuel is the length of the
scanned list, which bounds the number of scanning steps. -/
def replaceAllFuel (pat rep : List Nat) : Nat → List Nat → List Nat
  | 0, s => s
  | _ + 1, [] => []
  | fuel + 1, c :: rest =>
    if pat.isPrefixOf (c :: rest) then
      rep ++ replaceAllFuel pat rep fuel (rest.drop (pat.length - 1))
    else
      c :: replaceAllFuel pat rep fuel rest

/-- `strings.ReplaceAll s pat rep`: replace every non-overlapping
occurrence of `pat` in `s` by `rep`, scanning left to right.  (All
patterns in the substitution tables are nonempty, so the `pat = []`
behavior is never exercised.) -/
def replaceAll (s pat rep : List Nat) : List Nat :=
  replaceAllFuel pat rep s.length s

/-- `strings.Contains s sub`: `sub` occurs contiguously in `s`. -/
def containsSub (sub : List Nat) : List Nat → Bool
  | [] => sub.isEmpty
  | c :: rest => sub.isPrefixOf (c :: rest) || containsSub sub rest

/-- Lines 155–166 of the source: lower-case, then apply every
multi-character rule, then every single-character rule. -/
def leetStep3 (message : List Nat) : List Nat :=
  let normalized := message.map goToLower
  let n1 := multiCharLeet.foldl (fun acc pr => replaceAll acc pr.1 pr.2) normalized
  leetChars.foldl (fun acc pr => replaceAll acc pr.1 pr.2) n1

/-- Lines 168–176 of the source: for each ambiguous pattern occurring
in `n`, and each of its candidate letters, a full copy of `n` with all
occurrences of the pattern replaced by that candidate. -/
def ambiguousCopies (n : List Nat) : List (List Nat) :=
  ambiguousLeetMap.foldl
    (fun acc pr =>
      if containsSub pr.1 n then acc ++ pr.2.map (fun r => replaceAll n pr.1 r)
      else acc)
    []

/-- `strings.Join` with a given separator. -/
def joinWith (sep : List Nat) : List (List Nat) → List Nat
  | [] => []
  | [x] => x
  | x :: y :: rest => x ++ sep ++ joinWith sep (y :: rest)

/-- `normalizeLeetSpeak` (lines 153–185 of the source): steps 2–3 via
`leetStep3`, then ambiguous expansion; if any copies were produced the
result is the copies joined with single spaces, otherwise the step-3
string unchanged. -/
def normalizeLeetSpeak (message : List Nat) : List Nat :=
  let n := leetStep3 message
  let ps := ambiguousCopies n
  if ps.isEmpty then n else joinWith [32] ps

/-- Number of bytes of the UTF-8 encoding of one rune. -/
def utf8Len1 (c : Nat) : Nat :=
  if c < 0x80 then 1 else if c < 0x800 then 2 else if c < 0x10000 then 3 else 4

/-- Number of bytes of the UTF-8 encoding of a rune list; models Go's
`len` on the corresponding string. -/
def utf8Len (l : List Nat) : Nat := (l.map utf8Len1).sum

/-- Modelled from the spec: membership in the combining-mark class
removed by the folding stage (`unicode.Is(unicode.Mn, r)` in the
source), restricted to the Combining Diacritical Marks block
U+0300–U+036F, which covers every mark produced by
`canonicalDecomp`. -/
def isMn (c : Nat) : Bool := decide (0x300 ≤ c ∧ c ≤ 0x36F)

/-- Modelled from the spec: canonical decomposition (`norm.NFD`) for
the accented letters exercised in this development (à á ç è é); every
other rune decomposes to itself. -/
def canonicalDecomp (c : Nat) : List Nat :=
  if c = 0xE0 then [0x61, 0x300]
  else if c = 0xE1 then [0x61, 0x301]
  else if c = 0xE7 then [0x63, 0x327]
  else if c = 0xE8 then [0x65, 0x300]
  else if c = 0xE9 then [0x65, 0x301]
  else [c]

/-- A valid Unicode scalar value (not a surrogate, below U+110000);
a list failing this models malformed input encoding. -/
def wellFormedRune (c : Nat) : Bool :=
  decide (c < 0x110000) && !decide (0xD800 ≤ c ∧ c ≤ 0xDFFF)

/-- Modelled from the spec: the transform chain
`norm.NFD → RemoveFunc(Mn) → norm.NFC` of lines 98–100.  It fails only
on malformed input encoding; on well-formed input it canonically
decomposes each rune, discards the combining marks, and recomposes
(with every mark removed, recomposition has nothing left to combine,
so it is the identity here). -/
def foldDiacritics (l : List Nat) : Option (List Nat) :=
  if l.all wellFormedRune then
    some ((l.flatMap canonicalDecomp).filter (fun c => !isMn c))
  else none

/-- Configuration and banned-token set of a filter (the `SwearFilter`
struct).  Go's `BadWords` map is modelled as a list of rune-list
tokens; map keys are distinct, which theorems state as a `Nodup`
hypothesis where it matters, and iteration order is unspecified, so
results are stated at the level of membership and counts. -/
structure SwearFilter where
  DisableNormalize : Bool
  DisableSpacedTab : Bool
  DisableMultiWhitespaceStripping : Bool
  DisableZeroWidthStripping : Bool
  EnableSpacedBypass : Bool
  DisableLeetSpeak : Bool
  BadWords : List (List Nat)

/-- Lines 90–94 of `Check`: lower-case the message and, unless leet
normalization is disabled, run `normalizeLeetSpeak` on it. -/
def afterLeet (f : SwearFilter) (msg : List Nat) : List Nat :=
  if f.DisableLeetSpeak then msg.map goToLower
  else normalizeLeetSpeak (msg.map goToLower)

/-- Lines 96–106 of `Check`: the diacritic-folding stage.  The source
allocates `bytes := make([]byte, len(message))`, folds into it, and
keeps the whole buffer (`message = string(bytes)`), so the folded text
is padded with NUL bytes up to the original byte length.  A fold error
— or a folded form that would overflow the buffer (`ErrShortDst`) —
aborts with `none`. -/
def afterNormalize (f : SwearFilter) (msg : List Nat) : Option (List Nat) :=
  let m := afterLeet f msg
  if f.DisableNormalize then some m
  else
    match foldDiacritics m with
    | none => none
    | some folded =>
      if utf8Len folded ≤ utf8Len m then
        some (folded ++ List.replicate (utf8Len m - utf8Len folded) 0)
      else none

/-- Lines 108–110: `strings.Replace(message, "\t", " ", -1)`. -/
def afterTabs (f : SwearFilter) (m : List Nat) : List Nat :=
  if f.DisableSpacedTab then m
  else m.map (fun c => if c = 9 then 32 else c)

/-- Lines 112–115: `strings.Replace(message, "​", "", -1)`. -/
def afterZW (f : SwearFilter) (m : List Nat) : List Nat :=
  if f.DisableZeroWidthStripping then m
  else m.filter (fun c => !decide (c = 0x200B))

/-- The character class `[\s\p{Zs}]` of the whitespace regexes:
Go's `\s` is `[\t\n\f\r ]`, and `\p{Zs}` is the Unicode
space-separator category (U+0020, U+00A0, U+1680, U+2000–U+200A,
U+202F, U+205F, U+3000). -/
def wsChars : List Nat :=
  [9, 10, 12, 13, 32, 0xA0, 0x1680,
   0x2000, 0x2001, 0x2002, 0x2003, 0x2004, 0x2005,
   0x2006, 0x2007, 0x2008, 0x2009, 0x200A,
   0x202F, 0x205F, 0x3000]

/-- Whether a rune matches `[\s\p{Zs}]`. -/
def isWs (c : Nat) : Bool := wsChars.contains c

/-- Line 119–120: `ReplaceAllString` with `^[\s\p{Zs}]+|[\s\p{Zs}]+$`
and the empty replacement removes the maximal leading and trailing
whitespace runs. -/
def trimWs (l : List Nat) : List Nat :=
  ((l.dropWhile isWs).reverse.dropWhile isWs).reverse

/-- Whether a list starts with a whitespace rune (lookahead used by
`collapseWsAux`). -/
def headWs : List Nat → Bool
  | [] => false
  | d :: _ => isWs d

/-- Worker for `collapseWs`, carrying whether the previous rune was
whitespace.  A whitespace rune is kept only when it is a run of length
one, i.e. neither its predecessor nor its successor is whitespace;
this reproduces `ReplaceAllString` with `[\s\p{Zs}]{2,}` and the empty
replacement, which deletes every maximal run of length ≥ 2 outright. -/
def collapseWsAux (p : Bool) : List Nat → List Nat
  | [] => []
  | c :: rest =>
    if isWs c then
      (if p || headWs rest then [] else [c]) ++ collapseWsAux true rest
    else c :: collapseWsAux false rest

/-- Lines 121–122: delete every whitespace run of length ≥ 2. -/
def collapseWs (l : List Nat) : List Nat := collapseWsAux false l

/-- Lines 117–123 of `Check`: the multi-whitespace stripping stage —
trim the leading/trailing runs, then delete every interior run of
length ≥ 2. -/
def afterWs (f : SwearFilter) (m : List Nat) : List Nat :=
  if f.DisableMultiWhitespaceStripping then m
  else collapseWs (trimWs m)

/-- The fully normalized text `Check` matches against (lines 90–123),
or `none` when the folding stage errors. -/
def normalizedMessage (f : SwearFilter) (msg : List Nat) : Option (List Nat) :=
  (afterNormalize f msg).map (fun m => afterWs f (afterZW f (afterTabs f m)))

/-- Lines 127–144 of `Check`: the matching loop over the banned set.
The single-space sentinel is skipped; every other token is recorded if
it occurs in the message, or — when the spaced bypass is enabled — in
the message with all ordinary spaces removed. -/
def checkWords (bypass : Bool) (message : List Nat) : List (List Nat) → List (List Nat)
  | [] => []
  | swear :: rest =>
    if swear = [32] then checkWords bypass message rest
    else if containsSub swear message then
      swear :: checkWords bypass message rest
    else if bypass && containsSub swear (message.filter (fun c => !decide (c = 32))) then
      swear :: checkWords bypass message rest
    else checkWords bypass message rest

/-- `Check` (lines 82–151 of the source).  Result `(trippedWords, err)`:
`(none, false)` for an empty banned set (Go's `nil, nil`),
`(none, true)` when the folding stage errors (Go's `nil, err`), and
otherwise `(some tripped, false)` where `tripped` collects the loop's
matches plus the sentinel when the banned set holds `" "` and the
normalized message is empty. -/
def Check (f : SwearFilter) (msg : List Nat) : Option (List (List Nat)) × Bool :=
  if f.BadWords.isEmpty then (none, false)
  else
    match normalizedMessage f msg with
    | none => (none, true)
    | some message =>
      (some (checkWords f.EnableSpacedBypass message f.BadWords ++
        (if f.BadWords.contains [32] && message.isEmpty then [[32]] else [])), false)

/-- A filter in the default configuration of `NewSwearFilter` with
spaced bypass disabled: every normalization enabled. -/
def defaultF (ws : List (List Nat)) : SwearFilter :=
  ⟨false, false, false, false, false, false, ws⟩

/-- A filter in the default configuration with spaced bypass enabled. -/
def bypassF (ws : List (List Nat)) : SwearFilter :=
  ⟨false, false, false, false, true, false, ws⟩

/-- Edge predicate: the optional rune is absent or not whitespace. -/
def noWsEdge : Option Nat → Bool
  | none => true
  | some c => !isWs c

/-! ### Helper lemmas -/

theorem isPrefixOf_self_append (x y : List Nat) : x.isPrefixOf (x ++ y) = true :=
  List.isPrefixOf_iff_prefix.mpr ⟨y, rfl⟩

theorem containsSub_append_right {s y : List Nat} (h : containsSub s y = true)
    (x : List Nat) : containsSub s (x ++ y) = true := by
  induction x with
  | nil => exact h
  | cons c t ih => simp [containsSub, ih]

theorem containsSub_self_append (x y : List Nat) : containsSub x (x ++ y) = true := by
  cases x with
  | nil => cases y <;> simp [containsSub, List.isPrefixOf]
  | cons c t =>
    have h := isPrefixOf_self_append (c :: t) y
    simp only [List.cons_append] at h
    simp [containsSub, h]

theorem containsSub_self (x : List Nat) : containsSub x x = true := by
  have h := containsSub_self_append x []
  simpa using h

theorem mem_checkWords_mem_words {b : Bool} {m swear : List Nat}
    {ws : List (List Nat)} (h : swear ∈ checkWords b m ws) : swear ∈ ws := by
  induction ws with
  | nil => simp [checkWords] at h
  | cons w rest ih =>
    unfold checkWords at h
    split at h
    · exact List.mem_cons_of_mem _ (ih h)
    · split at h
      · rcases List.mem_cons.mp h with h | h
        · exact h ▸ List.mem_cons_self _ _
        · exact List.mem_cons_of_mem _ (ih h)
      · split at h
        · rcases List.mem_cons.mp h with h | h
          · exact h ▸ List.mem_cons_self _ _
          · exact List.mem_cons_of_mem _ (ih h)
        · exact List.mem_cons_of_mem _ (ih h)

theorem sentinel_not_mem_checkWords {b : Bool} {m : List Nat}
    {ws : List (List Nat)} : [32] ∉ checkWords b m ws := by
  induction ws with
  | nil => simp [checkWords]
  | cons w rest ih =>
    unfold checkWords
    split
    next h1 => exact ih
    next h1 =>
      split
      · intro h
        rcases List.mem_cons.mp h with h | h
        · exact h1 h.symm
        · exact ih h
      · split
        · intro h
          rcases List.mem_cons.mp h with h | h
          · exact h1 h.symm
          · exact ih h
        · exact ih

theorem mem_checkWords_iff {b : Bool} {m swear : List Nat} {ws : List (List Nat)} :
    swear ∈ checkWords b m ws ↔
      swear ∈ ws ∧ swear ≠ [32] ∧
        (containsSub swear m = true ∨
          (b = true ∧ containsSub swear (m.filter (fun c => !decide (c = 32))) = true)) := by
  induction ws with
  | nil => simp [checkWords]
  | cons w rest ih =>
    by_cases hc1 : w = [32]
    · rw [show checkWords b m (w :: rest) = checkWords b m rest by
        simp [checkWords, hc1]]
      rw [ih, List.mem_cons]
      constructor
      · rintro ⟨h1, h2, h3⟩
        exact ⟨Or.inr h1, h2, h3⟩
      · rintro ⟨h1 | h1, h2, h3⟩
        · exact absurd (h1.trans hc1) h2
        · exact ⟨h1, h2, h3⟩
    · by_cases hc2 : containsSub w m = true
      · rw [show checkWords b m (w :: rest) = w :: checkWords b m rest by
          simp [checkWords, hc1, hc2]]
        rw [List.mem_cons, ih, List.mem_cons]
        constructor
        · rintro (h1 | ⟨h1, h2, h3⟩)
          · subst h1
            exact ⟨Or.inl rfl, hc1, Or.inl hc2⟩
          · exact ⟨Or.inr h1, h2, h3⟩
        · rintro ⟨h1 | h1, h2, h3⟩
          · exact Or.inl h1
          · exact Or.inr ⟨h1, h2, h3⟩
      · by_cases hc3 : (b && containsSub w (m.filter (fun c => !decide (c = 32)))) = true
        · rw [show checkWords b m (w :: rest) = w :: checkWords b m rest by
            simp [checkWords, hc1, hc2, hc3]]
          rw [List.mem_cons, ih, List.mem_cons]
          rw [Bool.and_eq_true] at hc3
          constructor
          · rintro (h1 | ⟨h1, h2, h3⟩)
            · subst h1
              exact ⟨Or.inl rfl, hc1, Or.inr ⟨hc3.1, hc3.2⟩⟩
            · exact ⟨Or.inr h1, h2, h3⟩
          · rintro ⟨h1 | h1, h2, h3⟩
            · exact Or.inl h1
            · exact Or.inr ⟨h1, h2, h3⟩
        · rw [show checkWords b m (w :: rest) = checkWords b m rest by
            simp [checkWords, hc1, hc2, hc3]]
          rw [ih, List.mem_cons]
          constructor
          · rintro ⟨h1, h2, h3⟩
            exact ⟨Or.inr h1, h2, h3⟩
          · rintro ⟨h1 | h1, h2, h3⟩
            · subst h1
              rcases h3 with h3 | ⟨hb, h3⟩
              · exact absurd h3 hc2
              · exact absurd (by rw [hb, h3]; rfl) hc3
            · exact ⟨h1, h2, h3⟩

theorem count_checkWords_le (b : Bool) (m swear : List Nat) (ws : List (List Nat)) :
    (checkWords b m ws).count swear ≤ ws.count swear := by
  induction ws with
  | nil => simp [checkWords]
  | cons w rest ih =>
    unfold checkWords
    split
    · calc (checkWords b m rest).count swear ≤ rest.count swear := ih
        _ ≤ (w :: rest).count swear := by
          rw [List.count_cons]
          exact Nat.le_add_right _ _
    · split
      · rw [List.count_cons, List.count_cons]
        exact Nat.add_le_add ih (Nat.le_refl _)
      · split
        · rw [List.count_cons, List.count_cons]
          exact Nat.add_le_add ih (Nat.le_refl _)
        · calc (checkWords b m rest).count swear ≤ rest.count swear := ih
            _ ≤ (w :: rest).count swear := by
              rw [List.count_cons]
              exact Nat.le_add_right _ _

theorem count_le_one_of_nodup {α : Type} [BEq α] [LawfulBEq α] {l : List α}
    (h : l.Nodup) (a : α) : l.count a ≤ 1 := by
  induction l with
  | nil => exact Nat.zero_le 1
  | cons b rest ih =>
    rw [List.count_cons]
    rcases List.nodup_cons.mp h with ⟨hb, hrest⟩
    by_cases hba : (b == a) = true
    · have hzero : rest.count a = 0 := by
        rw [List.count_eq_zero]
        rw [eq_of_beq hba] at hb
        exact hb
      rw [hzero, if_pos hba]
    · rw [if_neg hba]
      simpa using ih hrest

theorem utf8Len_append (a b : List Nat) : utf8Len (a ++ b) = utf8Len a + utf8Len b := by
  simp [utf8Len]

theorem utf8Len_decompFilter_le (c : Nat) :
    utf8Len ((canonicalDecomp c).filter (fun d => !isMn d)) ≤ utf8Len1 c := by
  unfold canonicalDecomp
  split_ifs with h1 h2 h3 h4 h5
  · subst h1; decide
  · subst h2; decide
  · subst h3; decide
  · subst h4; decide
  · subst h5; decide
  · by_cases hm : isMn c = true
    · simp [List.filter_cons, hm, utf8Len]
    · simp only [Bool.not_eq_true] at hm
      simp [List.filter_cons, hm, utf8Len, utf8Len1]

theorem utf8Len_foldOut_le (l : List Nat) :
    utf8Len ((l.flatMap canonicalDecomp).filter (fun d => !isMn d)) ≤ utf8Len l := by
  induction l with
  | nil => simp [utf8Len]
  | cons c t ih =>
    rw [List.flatMap_cons, List.filter_append, utf8Len_append]
    have hc : utf8Len (c :: t) = utf8Len1 c + utf8Len t := by simp [utf8Len]
    rw [hc]
    exact Nat.add_le_add (utf8Len_decompFilter_le c) ih

theorem foldDiacritics_utf8Len_le {l folded : List Nat}
    (h : foldDiacritics l = some folded) : utf8Len folded ≤ utf8Len l := by
  unfold foldDiacritics at h
  split at h
  · rw [Option.some_inj] at h
    exact h ▸ utf8Len_foldOut_le l
  · exact absurd h (by simp)

theorem foldDiacritics_eq_none_iff {l : List Nat} :
    foldDiacritics l = none ↔ l.all wellFormedRune = false := by
  unfold foldDiacritics
  split
  next h => simp [h]
  next h => simp [Bool.not_eq_true] at h ⊢; exact h

theorem afterNormalize_eq_none_iff {f : SwearFilter} {msg : List Nat} :
    afterNormalize f msg = none ↔
      f.DisableNormalize = false ∧ foldDiacritics (afterLeet f msg) = none := by
  unfold afterNormalize
  cases hD : f.DisableNormalize with
  | true => simp
  | false =>
    simp only [Bool.false_eq_true, if_false, true_and]
    cases hF : foldDiacritics (afterLeet f msg) with
    | none => simp
    | some folded =>
      have hle := foldDiacritics_utf8Len_le hF
      simp [hle]

theorem afterNormalize_of_fold {f : SwearFilter} {msg folded : List Nat}
    (hD : f.DisableNormalize = false)
    (hF : foldDiacritics (afterLeet f msg) = some folded) :
    afterNormalize f msg =
      some (folded ++
        List.replicate (utf8Len (afterLeet f msg) - utf8Len folded) 0) := by
  unfold afterNormalize
  rw [hD]
  have hle := foldDiacritics_utf8Len_le hF
  simp [hF, hle]

theorem Check_of_normalized {f : SwearFilter} {msg m : List Nat}
    (hne : f.BadWords ≠ [])
    (hm : normalizedMessage f msg = some m) :
    Check f msg =
      (some (checkWords f.EnableSpacedBypass m f.BadWords ++
        (if f.BadWords.contains [32] && m.isEmpty then [[32]] else [])), false) := by
  unfold Check
  rw [if_neg (by simp [List.isEmpty_iff, hne])]
  rw [hm]

theorem Check_err_of_none {f : SwearFilter} {msg : List Nat}
    (hne : f.BadWords ≠ [])
    (hm : normalizedMessage f msg = none) :
    Check f msg = (none, true) := by
  unfold Check
  rw [if_neg (by simp [List.isEmpty_iff, hne])]
  rw [hm]

theorem normalizedMessage_eq_none_iff {f : SwearFilter} {msg : List Nat} :
    normalizedMessage f msg = none ↔ afterNormalize f msg = none := by
  unfold normalizedMessage
  cases afterNormalize f msg <;> simp

theorem copies_foldl_mono (n x : List Nat)
    (tbl : List (List Nat × List (List Nat))) :
    ∀ acc : List (List Nat), x ∈ acc →
      x ∈ tbl.foldl
        (fun acc pr =>
          if containsSub pr.1 n then acc ++ pr.2.map (fun r => replaceAll n pr.1 r)
          else acc) acc := by
  induction tbl with
  | nil => intro acc h; exact h
  | cons pr rest ih =>
    intro acc h
    rw [List.foldl_cons]
    apply ih
    split
    · exact List.mem_append_left _ h
    · exact h

theorem copies_foldl_mem {n pat cand : List Nat} {cands : List (List Nat)}
    (hc : containsSub pat n = true) (hcand : cand ∈ cands)
    (tbl : List (List Nat × List (List Nat))) (hp : (pat, cands) ∈ tbl) :
    ∀ acc : List (List Nat),
      replaceAll n pat cand ∈ tbl.foldl
        (fun acc pr =>
          if containsSub pr.1 n then acc ++ pr.2.map (fun r => replaceAll n pr.1 r)
          else acc) acc := by
  induction tbl with
  | nil => exact absurd hp (List.not_mem_nil _)
  | cons pr rest ih =>
    intro acc
    rw [List.foldl_cons]
    rcases List.mem_cons.mp hp with hp | hp
    · apply copies_foldl_mono
      rw [← hp]
      rw [if_pos hc]
      exact List.mem_append_right _ (List.mem_map.mpr ⟨cand, hcand, rfl⟩)
    · exact ih hp _

theorem mem_ambiguousCopies {n pat cand : List Nat} {cands : List (List Nat)}
    (hp : (pat, cands) ∈ ambiguousLeetMap) (hc : containsSub pat n = true)
    (hcand : cand ∈ cands) : replaceAll n pat cand ∈ ambiguousCopies n :=
  copies_foldl_mem hc hcand ambiguousLeetMap hp []

theorem ambiguousCopies_foldl_id {n : List Nat}
    (tbl : List (List Nat × List (List Nat)))
    (h : ∀ pr ∈ tbl, containsSub pr.1 n = false) :
    ∀ acc : List (List Nat),
      tbl.foldl
        (fun acc pr =>
          if containsSub pr.1 n then acc ++ pr.2.map (fun r => replaceAll n pr.1 r)
          else acc) acc = acc := by
  induction tbl with
  | nil => intro acc; rfl
  | cons pr rest ih =>
    intro acc
    rw [List.foldl_cons]
    rw [if_neg (by rw [h pr (List.mem_cons_self _ _)]; exact Bool.false_ne_true)]
    exact ih (fun q hq => h q (List.mem_cons_of_mem _ hq)) acc

theorem ambiguousCopies_eq_nil {n : List Nat}
    (h : ∀ pr ∈ ambiguousLeetMap, containsSub pr.1 n = false) :
    ambiguousCopies n = [] :=
  ambiguousCopies_foldl_id ambiguousLeetMap h []

theorem containsSub_mem_joinWith {x : List Nat} {ps : List (List Nat)}
    (h : x ∈ ps) : containsSub x (joinWith [32] ps) = true := by
  induction ps with
  | nil => exact absurd h (List.not_mem_nil _)
  | cons y rest ih =>
    cases rest with
    | nil =>
      rcases List.mem_cons.mp h with h | h
      · subst h
        exact containsSub_self x
      · exact absurd h (List.not_mem_nil _)
    | cons z rs =>
      rcases List.mem_cons.mp h with h | h
      · subst h
        show containsSub x (x ++ [32] ++ joinWith [32] (z :: rs)) = true
        rw [List.append_assoc]
        exact containsSub_self_append x _
      · show containsSub x (y ++ [32] ++ joinWith [32] (z :: rs)) = true
        rw [List.append_assoc]
        exact containsSub_append_right (containsSub_append_right (ih h) [32]) y

theorem check_some_shape {f : SwearFilter} {msg : List Nat} {t : List (List Nat)}
    (ht : (Check f msg).1 = some t) :
    ∃ m, normalizedMessage f msg = some m ∧
      t = checkWords f.EnableSpacedBypass m f.BadWords ++
        (if f.BadWords.contains [32] && m.isEmpty then [[32]] else []) := by
  unfold Check at ht
  by_cases he : f.BadWords.isEmpty = true
  · rw [if_pos he] at ht
    exact absurd ht (by simp)
  · rw [if_neg he] at ht
    cases hm : normalizedMessage f msg with
    | none =>
      rw [hm] at ht
      exact absurd ht (by simp)
    | some m =>
      rw [hm] at ht
      exact ⟨m, rfl, (Option.some_inj.mp ht).symm⟩

theorem check_tripped_subset {f : SwearFilter} {msg : List Nat} {t : List (List Nat)}
    (ht : (Check f msg).1 = some t) : ∀ w ∈ t, w ∈ f.BadWords := by
  intro w hw
  obtain ⟨m, _, hX⟩ := check_some_shape ht
  rw [hX] at hw
  rcases List.mem_append.mp hw with hw | hw
  · exact mem_checkWords_mem_words hw
  · split at hw
    next hcond =>
      have h32 : w = [32] := by simpa using hw
      rw [Bool.and_eq_true] at hcond
      rw [h32]
      exact List.elem_iff.mp hcond.1
    next hcond => exact absurd hw (List.not_mem_nil _)

/-! ### The claims -/

/-- C1: `Check` returns an error only when the Unicode-folding stage
fails on malformed input encoding; in that case the call aborts with no
tripped words (a nil result), and whenever folding is disabled or
succeeds the call does not error.  (The folding stage is spec-modelled;
the second potential error source in the model, a folded form longer
than the destination buffer, is proved unreachable via
`foldDiacritics_utf8Len_le`.) -/
theorem check_error_only_on_fold_failure (f : SwearFilter) (msg : List Nat) :
    ((Check f msg).2 = true →
        f.DisableNormalize = false ∧ foldDiacritics (afterLeet f msg) = none ∧
          (Check f msg).1 = none)
    ∧ ((f.DisableNormalize = true ∨ foldDiacritics (afterLeet f msg) ≠ none) →
        (Check f msg).2 = false) := by
  constructor
  · intro herr
    by_cases he : f.BadWords.isEmpty = true
    · unfold Check at herr
      rw [if_pos he] at herr
      exact absurd herr (by simp)
    · cases hm : normalizedMessage f msg with
      | some m =>
        unfold Check at herr
        rw [if_neg he, hm] at herr
        exact absurd herr (by simp)
      | none =>
        have hn := normalizedMessage_eq_none_iff.mp hm
        have hiff := afterNormalize_eq_none_iff.mp hn
        refine ⟨hiff.1, hiff.2, ?_⟩
        unfold Check
        rw [if_neg he, hm]
  · intro h
    by_cases he : f.BadWords.isEmpty = true
    · unfold Check
      rw [if_pos he]
    · cases hm : normalizedMessage f msg with
      | some m =>
        unfold Check
        rw [if_neg he, hm]
      | none =>
        exfalso
        have hn := afterNormalize_eq_none_iff.mp (normalizedMessage_eq_none_iff.mp hm)
        rcases h with h | h
        · rw [hn.1] at h
          exact Bool.false_ne_true h
        · exact h hn.2

/-- Witness for C1: a well-formed input does not error, and a
malformed input (an unpaired surrogate rune) errors with a nil
result. -/
theorem check_error_only_on_fold_failure_witness :
    (Check (defaultF [[104]]) [104, 105]).2 = false ∧
      (Check (defaultF [[104]]) [0xD800]).1 = none :=
  ⟨(check_error_only_on_fold_failure (defaultF [[104]]) [104, 105]).2 (Or.inr (by decide)),
   ((check_error_only_on_fold_failure (defaultF [[104]]) [0xD800]).1 (by decide)).2.2⟩

/-- C3: when the banned set holds the single-space sentinel token, the
sentinel is reported as tripped if and only if the fully normalized
text is empty; the matching loop never tests it as an ordinary
substring token, so a non-empty normalized text (even one containing
spaces) never trips it. -/
theorem space_sentinel_trips_iff_empty (f : SwearFilter) (msg m : List Nat)
    (t : List (List Nat)) (hw : [32] ∈ f.BadWords)
    (hm : normalizedMessage f msg = some m)
    (ht : (Check f msg).1 = some t) :
    [32] ∈ t ↔ m = [] := by
  obtain ⟨m', hm', hX⟩ := check_some_shape ht
  have hmm : m' = m := Option.some_inj.mp (hm' ▸ hm)
  subst hmm
  rw [hX]
  constructor
  · intro hmem
    rcases List.mem_append.mp hmem with h | h
    · exact absurd h sentinel_not_mem_checkWords
    · split at h
      next hcond =>
        rw [Bool.and_eq_true] at hcond
        exact List.isEmpty_iff.mp hcond.2
      next hcond => exact absurd h (List.not_mem_nil _)
  · intro hmm
    subst hmm
    apply List.mem_append_right
    rw [if_pos (by rw [Bool.and_eq_true]; exact ⟨List.elem_iff.mpr hw, rfl⟩)]
    exact List.mem_singleton.mpr rfl

/-- Witness for C3: a tab-only message normalizes to the empty text and
trips the sentinel. -/
theorem space_sentinel_trips_iff_empty_witness :
    [32] ∈ ([[32]] : List (List Nat)) ↔ ([] : List Nat) = [] :=
  space_sentinel_trips_iff_empty (defaultF [[32]]) [9] [] [[32]]
    (by decide) (by decide) (by decide)

/-- C4: for every ambiguous pattern occurring in the step-3 string and
every candidate letter, the full copy with all occurrences replaced by
that candidate occurs inside the normalizer output (the copies are
joined with single-space separators); with no ambiguous pattern the
step-3 string is returned unchanged; consequently the input
`"h3||o"` with banned word `"hello"` trips `"hello"`. -/
theorem ambiguous_expansion_spec :
    (∀ (msg pat cand : List Nat) (cands : List (List Nat)),
        (pat, cands) ∈ ambiguousLeetMap → cand ∈ cands →
        containsSub pat (leetStep3 msg) = true →
        containsSub (replaceAll (leetStep3 msg) pat cand) (normalizeLeetSpeak msg) = true)
    ∧ (∀ msg : List Nat,
        (∀ pr ∈ ambiguousLeetMap, containsSub pr.1 (leetStep3 msg) = false) →
        normalizeLeetSpeak msg = leetStep3 msg)
    ∧ Check (defaultF [[104, 101, 108, 108, 111]]) [104, 51, 124, 124, 111] =
        (some [[104, 101, 108, 108, 111]], false) := by
  refine ⟨?_, ?_, by decide⟩
  · intro msg pat cand cands hp hcand hc
    have hmem : replaceAll (leetStep3 msg) pat cand ∈ ambiguousCopies (leetStep3 msg) :=
      mem_ambiguousCopies hp hc hcand
    have hne : (ambiguousCopies (leetStep3 msg)).isEmpty = false := by
      cases hq : ambiguousCopies (leetStep3 msg) with
      | nil =>
        rw [hq] at hmem
        exact absurd hmem (List.not_mem_nil _)
      | cons a t => rfl
    have hout : normalizeLeetSpeak msg = joinWith [32] (ambiguousCopies (leetStep3 msg)) := by
      unfold normalizeLeetSpeak
      simp [hne]
    rw [hout]
    exact containsSub_mem_joinWith hmem
  · intro msg h
    have h0 := ambiguousCopies_eq_nil h
    unfold normalizeLeetSpeak
    simp [h0]

/-- Witness for C4: in `"h3||o"` the ambiguous pattern `"|"` expanded
with candidate `"l"` yields a copy occurring in the normalizer
output. -/
theorem ambiguous_expansion_spec_witness :
    containsSub (replaceAll (leetStep3 [104, 51, 124, 124, 111]) [124] [108])
      (normalizeLeetSpeak [104, 51, 124, 124, 111]) = true :=
  ambiguous_expansion_spec.1 [104, 51, 124, 124, 111] [124] [108] [[105], [108]]
    (by decide) (by decide) (by decide)

/-- C5: the whole multi-character table is applied before any
single-character rule (the normalizer factors through the
multi-character pass), the table holds the rule for `"ph"`, and the
input `"pharty"` with banned word `"farty"` trips `"farty"`. -/
theorem multi_char_precedence_spec :
    ([112, 104], [102]) ∈ multiCharLeet
    ∧ (∀ msg : List Nat,
        normalizeLeetSpeak msg =
          (let n := leetChars.foldl (fun acc pr => replaceAll acc pr.1 pr.2)
              (multiCharLeet.foldl (fun acc pr => replaceAll acc pr.1 pr.2)
                (msg.map goToLower))
           let ps := ambiguousCopies n
           if ps.isEmpty then n else joinWith [32] ps))
    ∧ normalizeLeetSpeak [112, 104, 97, 114, 116, 121] = [102, 97, 114, 116, 121]
    ∧ Check (defaultF [[102, 97, 114, 116, 121]]) [112, 104, 97, 114, 116, 121] =
        (some [[102, 97, 114, 116, 121]], false) :=
  ⟨by decide, fun _ => rfl, by decide, by decide⟩

/-- C8: an empty (or nil) banned-word set makes `Check` return a nil
result and no error for every configuration and input — including an
input whose folding would fail, showing that no normalization stage
runs. -/
theorem empty_badwords_check (f : SwearFilter) (msg : List Nat)
    (h : f.BadWords = []) : Check f msg = (none, false) := by
  unfold Check
  rw [if_pos (by simp [List.isEmpty_iff, h])]

/-- Witness for C8: the empty banned set returns a nil result even for
a malformed input. -/
theorem empty_badwords_check_witness :
    Check (defaultF []) [0xD800] = (none, false) :=
  empty_badwords_check (defaultF []) [0xD800] rfl

/-- C9: the single-character table rewrites the ordinary letters j (to
i) and v (to u) in the input text, while tripped tokens are always
verbatim members of the banned set (tokens are never rewritten); hence
the banned word `"jerk"` is not tripped even on the exact input
`"jerk"`. -/
theorem leet_rewrites_text_not_tokens :
    ([106], [105]) ∈ leetChars ∧ ([118], [117]) ∈ leetChars
    ∧ (∀ (f : SwearFilter) (msg : List Nat) (t : List (List Nat)),
        (Check f msg).1 = some t → ∀ w ∈ t, w ∈ f.BadWords)
    ∧ Check (defaultF [[106, 101, 114, 107]]) [106, 101, 114, 107] = (some [], false) :=
  ⟨by decide, by decide, fun _ _ _ ht => check_tripped_subset ht, by decide⟩

/-- Witness for C9: a tripped token is a verbatim banned token. -/
theorem leet_rewrites_text_not_tokens_witness :
    [104] ∈ (defaultF [[104]]).BadWords :=
  leet_rewrites_text_not_tokens.2.2.1 (defaultF [[104]]) [104] [[104]]
    (by decide) [104] (by decide)

/-- C10: with diacritic folding enabled, the folded text is written
into a buffer sized to the input's byte length and the whole buffer is
kept, so the folding stage yields the folded text followed by NUL
runes up to the original byte length; an input consisting solely of a
combining mark normalizes to a non-empty all-NUL text and therefore
does not trip the single-space sentinel. -/
theorem fold_buffer_nul_padding :
    (∀ (f : SwearFilter) (msg folded : List Nat),
        f.DisableNormalize = false →
        foldDiacritics (afterLeet f msg) = some folded →
          utf8Len folded ≤ utf8Len (afterLeet f msg) ∧
          afterNormalize f msg =
            some (folded ++
              List.replicate (utf8Len (afterLeet f msg) - utf8Len folded) 0))
    ∧ normalizedMessage (defaultF [[32]]) [0x301] = some [0, 0]
    ∧ Check (defaultF [[32]]) [0x301] = (some [], false) := by
  refine ⟨?_, by decide, by decide⟩
  intro f msg folded hD hF
  exact ⟨foldDiacritics_utf8Len_le hF, afterNormalize_of_fold hD hF⟩

/-- Witness for C10: the input `"é"` (two UTF-8 bytes) folds to
`"e"` (one byte) and the kept buffer is `"e"` plus one NUL. -/
theorem fold_buffer_nul_padding_witness :
    utf8Len [0x65] ≤ utf8Len (afterLeet (defaultF [[32]]) [0xE9]) ∧
      afterNormalize (defaultF [[32]]) [0xE9] =
        some ([0x65] ++
          List.replicate (utf8Len (afterLeet (defaultF [[32]]) [0xE9]) - utf8Len [0x65]) 0) :=
  fold_buffer_nul_padding.1 (defaultF [[32]]) [0xE9] [0x65] rfl (by decide)

/-- C6: a non-sentinel banned token is tripped exactly when it occurs
in the normalized text or — with the spaced bypass enabled — in the
text with all ordinary spaces removed; with distinct banned tokens
each token is recorded at most once; concretely, `"h e l l o"` with
banned word `"hello"` trips with the bypass enabled and does not trip
with it disabled. -/
theorem spaced_bypass_matching :
    (∀ (f : SwearFilter) (msg m swear : List Nat) (t : List (List Nat)),
        normalizedMessage f msg = some m → (Check f msg).1 = some t → swear ≠ [32] →
          ((swear ∈ t ↔ swear ∈ f.BadWords ∧
              (containsSub swear m = true ∨
                (f.EnableSpacedBypass = true ∧
                  containsSub swear (m.filter (fun c => !decide (c = 32))) = true)))
            ∧ (f.BadWords.Nodup → t.count swear ≤ 1)))
    ∧ Check (bypassF [[104, 101, 108, 108, 111]]) [104, 32, 101, 32, 108, 32, 108, 32, 111] =
        (some [[104, 101, 108, 108, 111]], false)
    ∧ Check (defaultF [[104, 101, 108, 108, 111]]) [104, 32, 101, 32, 108, 32, 108, 32, 111] =
        (some [], false) := by
  refine ⟨?_, by decide, by decide⟩
  intro f msg m swear t hm ht hs
  obtain ⟨m', hm', hX⟩ := check_some_shape ht
  have hmm : m' = m := Option.some_inj.mp (hm' ▸ hm)
  subst hmm
  constructor
  · rw [hX, List.mem_append]
    constructor
    · rintro (h | h)
      · have := mem_checkWords_iff.mp h
        exact ⟨this.1, this.2.2⟩
      · exfalso
        split at h
        next => exact hs (by simpa using h)
        next => exact List.not_mem_nil _ h
    · rintro ⟨h1, h2⟩
      exact Or.inl (mem_checkWords_iff.mpr ⟨h1, hs, h2⟩)
  · intro hnd
    rw [hX, List.count_append]
    have h1 : (checkWords f.EnableSpacedBypass m' f.BadWords).count swear ≤ 1 :=
      Nat.le_trans (count_checkWords_le _ _ _ _) (count_le_one_of_nodup hnd swear)
    have h2 : (if f.BadWords.contains [32] && m'.isEmpty then [[32]] else
        ([] : List (List Nat))).count swear = 0 := by
      split
      · have hne : [32] ≠ swear := Ne.symm hs
        simp [List.count_cons, hne]
      · rfl
    rw [h2]
    simpa using h1

/-- Witness for C6: instantiating the spaced-bypass characterization at
the bypass-enabled `"h e l l o"` example, each banned token is recorded
at most once. -/
theorem spaced_bypass_matching_witness :
    List.count [104, 101, 108, 108, 111] [[104, 101, 108, 108, 111]] ≤ 1 :=
  (spaced_bypass_matching.1 (bypassF [[104, 101, 108, 108, 111]])
      [104, 32, 101, 32, 108, 32, 108, 32, 111]
      [104, 32, 101, 32, 108, 32, 108, 32, 111]
      [104, 101, 108, 108, 111] [[104, 101, 108, 108, 111]]
      (by decide) (by decide) (by decide)).2 (by decide)

/-- C7, counterexample: `Check` is not invariant under upper-casing
the text.  The banned word ı (U+0131, dotless i) trips on the input
ı itself, but the upper-cased input is I, which lower-cases to the
ordinary i and no longer contains the banned token. -/
theorem check_upper_counterexample :
    Check (defaultF [[0x131]]) ([0x131].map goToUpper) ≠
      Check (defaultF [[0x131]]) [0x131] := by decide

/-- C7, amended: for every configuration, banned set and text each of
whose characters upper-cases to a character with the same lower-case
form (all ASCII text in particular), `Check` on the text and on its
upper-cased form yield identical results, tripped words and error
outcome alike. -/
theorem check_upper_invariant (f : SwearFilter) (t : List Nat)
    (h : ∀ c ∈ t, goToLower (goToUpper c) = goToLower c) :
    Check f (t.map goToUpper) = Check f t := by
  have hl : (t.map goToUpper).map goToLower = t.map goToLower := by
    rw [List.map_map]
    exact List.map_congr_left h
  have ha : afterLeet f (t.map goToUpper) = afterLeet f t := by
    unfold afterLeet
    rw [hl]
  unfold Check normalizedMessage afterNormalize
  rw [ha]

/-- Witness for C7 amended: an ASCII text with a capital letter. -/
theorem check_upper_invariant_witness :
    Check (defaultF [[104, 105]]) ([104, 105].map goToUpper) =
      Check (defaultF [[104, 105]]) [104, 105] :=
  check_upper_invariant (defaultF [[104, 105]]) [104, 105] (by decide)

/-! ### Whitespace-stage lemmas for C2 -/

theorem getLast?_mem_self : ∀ (l : List Nat) (c : Nat), l.getLast? = some c → c ∈ l := by
  intro l
  induction l with
  | nil => intro c h; simp at h
  | cons x rest ih =>
    intro c h
    cases rest with
    | nil =>
      have : x = c := by simpa using h
      exact this ▸ List.mem_cons_self _ _
    | cons y t =>
      rw [List.getLast?_cons_cons] at h
      exact List.mem_cons_of_mem _ (ih c h)

theorem dropWhile_head_noWs (l : List Nat) :
    noWsEdge ((l.dropWhile isWs).head?) = true := by
  induction l with
  | nil => rfl
  | cons c rest ih =>
    rw [List.dropWhile_cons]
    by_cases hc : isWs c = true
    · rw [if_pos hc]
      exact ih
    · rw [if_neg hc]
      simp [noWsEdge, hc]

theorem dropWhile_getLast_eq (p : Nat → Bool) :
    ∀ l : List Nat, l.dropWhile p ≠ [] → (l.dropWhile p).getLast? = l.getLast? := by
  intro l
  induction l with
  | nil => intro h; exact absurd rfl h
  | cons c rest ih =>
    intro h
    rw [List.dropWhile_cons] at h ⊢
    by_cases hc : p c = true
    · rw [if_pos hc] at h ⊢
      have hrest : rest ≠ [] := by
        intro hr
        rw [hr] at h
        exact h rfl
      rw [ih h]
      cases rest with
      | nil => exact absurd rfl hrest
      | cons d t => exact (List.getLast?_cons_cons).symm
    · rw [if_neg hc]

theorem trimWs_head_noWs (l : List Nat) : noWsEdge ((trimWs l).head?) = true := by
  unfold trimWs
  rw [List.head?_reverse]
  by_cases hX : (l.dropWhile isWs).reverse.dropWhile isWs = []
  · rw [hX]
    rfl
  · rw [dropWhile_getLast_eq isWs _ hX, List.getLast?_reverse]
    exact dropWhile_head_noWs l

theorem trimWs_getLast_noWs (l : List Nat) : noWsEdge ((trimWs l).getLast?) = true := by
  unfold trimWs
  rw [List.getLast?_reverse]
  exact dropWhile_head_noWs _

theorem collapseWsAux_head (p : Bool) (l : List Nat)
    (h : noWsEdge l.head? = true) : (collapseWsAux p l).head? = l.head? := by
  cases l with
  | nil => rfl
  | cons c rest =>
    have hc : isWs c = false := by simpa [noWsEdge] using h
    simp [collapseWsAux, hc]

theorem collapseWsAux_getLast :
    ∀ (l : List Nat) (c : Nat), l.getLast? = some c → isWs c = false →
      ∀ p : Bool, (collapseWsAux p l).getLast? = some c := by
  intro l
  induction l with
  | nil => intro c h; simp at h
  | cons x rest ih =>
    intro c hlast hc p
    cases rest with
    | nil =>
      have hx : x = c := by simpa using hlast
      subst hx
      simp [collapseWsAux, hc]
    | cons y t =>
      have hlast' : (y :: t).getLast? = some c := by
        rw [← List.getLast?_cons_cons]
        exact hlast
      by_cases hx : isWs x = true
      · show (collapseWsAux p (x :: y :: t)).getLast? = some c
        unfold collapseWsAux
        rw [if_pos hx]
        have hne : collapseWsAux true (y :: t) ≠ [] := by
          intro hz
          have h2 := ih c hlast' hc true
          rw [hz] at h2
          simp at h2
        rw [List.getLast?_append_of_ne_nil _ hne]
        exact ih c hlast' hc true
      · show (collapseWsAux p (x :: y :: t)).getLast? = some c
        unfold collapseWsAux
        rw [if_neg hx]
        have h2 := ih c hlast' hc false
        cases hcw : collapseWsAux false (y :: t) with
        | nil =>
          rw [hcw] at h2
          simp at h2
        | cons a bl =>
          rw [hcw] at h2
          rw [List.getLast?_cons_cons]
          exact h2

theorem collapseWsAux_cons (p : Bool) (c : Nat) (rest : List Nat) :
    collapseWsAux p (c :: rest) =
      if isWs c then (if p || headWs rest then [] else [c]) ++ collapseWsAux true rest
      else c :: collapseWsAux false rest := rfl

theorem collapseWsAux_append :
    ∀ (a : List Nat) (c : Nat), a.getLast? = some c → isWs c = false →
      ∀ (p : Bool) (x : List Nat),
        collapseWsAux p (a ++ x) = collapseWsAux p a ++ collapseWsAux false x := by
  intro a
  induction a with
  | nil => intro c h; simp at h
  | cons d rest ih =>
    intro c hlast hc p x
    cases rest with
    | nil =>
      have hd : d = c := by simpa using hlast
      subst hd
      simp [collapseWsAux_cons, collapseWsAux, hc]
    | cons y t =>
      have hlast' : (y :: t).getLast? = some c := by
        rw [← List.getLast?_cons_cons]
        exact hlast
      rw [List.cons_append]
      by_cases hd : isWs d = true
      · show collapseWsAux p (d :: ((y :: t) ++ x)) =
          collapseWsAux p (d :: y :: t) ++ collapseWsAux false x
        rw [collapseWsAux_cons p d ((y :: t) ++ x), collapseWsAux_cons p d (y :: t)]
        rw [if_pos hd, if_pos hd]
        have hhead : headWs ((y :: t) ++ x) = headWs (y :: t) := rfl
        rw [hhead]
        rw [ih c hlast' hc true x]
        rw [List.append_assoc]
      · show collapseWsAux p (d :: ((y :: t) ++ x)) =
          collapseWsAux p (d :: y :: t) ++ collapseWsAux false x
        rw [collapseWsAux_cons p d ((y :: t) ++ x), collapseWsAux_cons p d (y :: t)]
        rw [if_neg hd, if_neg hd]
        rw [ih c hlast' hc false x]
        rw [List.cons_append]

theorem collapseWsAux_true_all_ws :
    ∀ run : List Nat, run.all isWs = true →
      ∀ x, collapseWsAux true (run ++ x) = collapseWsAux true x := by
  intro run
  induction run with
  | nil => intro _ x; rfl
  | cons r rest ih =>
    intro hall x
    rw [List.all_cons, Bool.and_eq_true] at hall
    rw [List.cons_append]
    rw [collapseWsAux_cons true r (rest ++ x)]
    rw [if_pos hall.1]
    simp [ih hall.2 x]

theorem collapseWsAux_false_run (run B : List Nat) (hall : run.all isWs = true)
    (hlen : 2 ≤ run.length) (hB : noWsEdge B.head? = true) :
    collapseWsAux false (run ++ B) = collapseWsAux false B := by
  cases run with
  | nil => simp at hlen
  | cons r1 rest =>
    cases rest with
    | nil => simp at hlen
    | cons r2 t =>
      rw [List.all_cons, Bool.and_eq_true] at hall
      have hall2 := hall.2
      rw [List.all_cons, Bool.and_eq_true] at hall2
      rw [List.cons_append]
      unfold collapseWsAux
      rw [if_pos hall.1]
      have hhead : headWs ((r2 :: t) ++ B) = true := by
        simp [headWs, List.cons_append, hall2.1]
      rw [hhead]
      rw [collapseWsAux_true_all_ws (r2 :: t) hall.2 B]
      cases B with
      | nil => rfl
      | cons b0 bs =>
        have hb : isWs b0 = false := by simpa [noWsEdge] using hB
        simp [collapseWsAux, hb]

theorem dropWhile_append_of_mem (p : Nat → Bool) :
    ∀ a : List Nat, (∃ d ∈ a, p d = false) →
      ∀ x, (a ++ x).dropWhile p = a.dropWhile p ++ x := by
  intro a
  induction a with
  | nil =>
    rintro ⟨d, hd, _⟩ x
    exact absurd hd (List.not_mem_nil _)
  | cons c rest ih =>
    rintro ⟨d, hd, hdp⟩ x
    rw [List.cons_append, List.dropWhile_cons, List.dropWhile_cons]
    by_cases hcp : p c = true
    · rw [if_pos hcp, if_pos hcp]
      apply ih ?_ x
      rcases List.mem_cons.mp hd with h | h
      · subst h
        rw [hdp] at hcp
        exact absurd hcp (by simp)
      · exact ⟨d, h, hdp⟩
    · rw [if_neg hcp, if_neg hcp, List.cons_append]

theorem dropWhile_append_all_ws (p : Nat → Bool) :
    ∀ run : List Nat, run.all p = true →
      ∀ x : List Nat, (run ++ x).dropWhile p = x.dropWhile p := by
  intro run
  induction run with
  | nil => intro _ x; rfl
  | cons r rest ih =>
    intro hall x
    rw [List.all_cons, Bool.and_eq_true] at hall
    rw [List.cons_append, List.dropWhile_cons, if_pos hall.1]
    exact ih hall.2 x

theorem collapseWs_fusion (A run B : List Nat) (hA : noWsEdge A.getLast? = true)
    (hrun : run.all isWs = true) (h2 : 2 ≤ run.length)
    (hB : noWsEdge B.head? = true) :
    collapseWs (A ++ run ++ B) = collapseWs (A ++ B) := by
  unfold collapseWs
  cases hAl : A.getLast? with
  | none =>
    have hAe : A = [] := List.getLast?_eq_none_iff.mp hAl
    subst hAe
    simp only [List.nil_append]
    exact collapseWsAux_false_run run B hrun h2 hB
  | some c =>
    have hc : isWs c = false := by
      rw [hAl] at hA
      simpa [noWsEdge] using hA
    rw [List.append_assoc]
    rw [collapseWsAux_append A c hAl hc false (run ++ B)]
    rw [collapseWsAux_append A c hAl hc false B]
    rw [collapseWsAux_false_run run B hrun h2 hB]

theorem trimWs_ws_prefix_absorb (run b : List Nat) (hrun : run.all isWs = true) :
    trimWs (run ++ b) = trimWs b := by
  unfold trimWs
  rw [dropWhile_append_all_ws isWs run hrun b]

theorem trimWs_ws_suffix_absorb (a run : List Nat) (hrun : run.all isWs = true)
    (ca : Nat) (hca : a.getLast? = some ca) (hcaw : isWs ca = false) :
    trimWs (a ++ run) = trimWs a := by
  unfold trimWs
  rw [dropWhile_append_of_mem isWs a ⟨ca, getLast?_mem_self a ca hca, hcaw⟩ run]
  rw [List.reverse_append]
  rw [dropWhile_append_all_ws isWs run.reverse (by rw [List.all_reverse]; exact hrun)]

theorem trimWs_split (a run b : List Nat)
    (ca : Nat) (hca : a.getLast? = some ca) (hcaw : isWs ca = false)
    (cb : Nat) (hcb : b.head? = some cb) (hcbw : isWs cb = false) :
    trimWs (a ++ run ++ b) =
      a.dropWhile isWs ++ run ++ (b.reverse.dropWhile isWs).reverse := by
  have hmemA : ca ∈ a := getLast?_mem_self a ca hca
  have hmemBrev : cb ∈ b.reverse := by
    rw [List.mem_reverse]
    cases b with
    | nil => simp at hcb
    | cons b0 bs =>
      have : b0 = cb := by simpa using hcb
      exact this ▸ List.mem_cons_self _ _
  unfold trimWs
  rw [List.append_assoc a run b]
  rw [dropWhile_append_of_mem isWs a ⟨ca, hmemA, hcaw⟩ (run ++ b)]
  rw [List.reverse_append, List.reverse_append]
  rw [List.append_assoc]
  rw [dropWhile_append_of_mem isWs b.reverse ⟨cb, hmemBrev, hcbw⟩
    (run.reverse ++ (a.dropWhile isWs).reverse)]
  rw [List.reverse_append, List.reverse_append, List.reverse_reverse,
    List.reverse_reverse]

theorem trimWs_split_pair (a b : List Nat)
    (ca : Nat) (hca : a.getLast? = some ca) (hcaw : isWs ca = false)
    (cb : Nat) (hcb : b.head? = some cb) (hcbw : isWs cb = false) :
    trimWs (a ++ b) = a.dropWhile isWs ++ (b.reverse.dropWhile isWs).reverse := by
  have h := trimWs_split a [] b ca hca hcaw cb hcb hcbw
  rw [List.append_nil] at h
  rw [h]
  rw [List.append_nil]

/-- C2: with multi-whitespace stripping enabled, the whitespace stage
removes every leading and trailing whitespace run (its output neither
starts nor ends with a whitespace or Unicode space-separator rune) and
deletes every interior run of two-or-more such runes outright, fusing
the neighbouring non-space segments: inserting such a run between a
segment ending and a segment starting in non-whitespace does not change
the stage's output. -/
theorem whitespace_run_deletion (f : SwearFilter)
    (hcfg : f.DisableMultiWhitespaceStripping = false) :
    (∀ l : List Nat,
        noWsEdge ((afterWs f l).head?) = true ∧
        noWsEdge ((afterWs f l).getLast?) = true)
    ∧ (∀ a run b : List Nat, run.all isWs = true → 2 ≤ run.length →
        noWsEdge a.getLast? = true → noWsEdge b.head? = true →
        afterWs f (a ++ run ++ b) = afterWs f (a ++ b)) := by
  have hstage : ∀ l, afterWs f l = collapseWs (trimWs l) := by
    intro l
    unfold afterWs
    rw [hcfg]
    simp
  constructor
  · intro l
    rw [hstage l]
    constructor
    · unfold collapseWs
      rw [collapseWsAux_head false (trimWs l) (trimWs_head_noWs l)]
      exact trimWs_head_noWs l
    · cases hh : (trimWs l).getLast? with
      | none =>
        have hnil : trimWs l = [] := List.getLast?_eq_none_iff.mp hh
        rw [hnil]
        rfl
      | some c =>
        have hc : isWs c = false := by
          have h := trimWs_getLast_noWs l
          rw [hh] at h
          simpa [noWsEdge] using h
        unfold collapseWs
        rw [collapseWsAux_getLast (trimWs l) c hh hc false]
        simpa [noWsEdge] using hc
  · intro a run b hrun h2 ha hb
    rw [hstage, hstage]
    by_cases haN : a = []
    · subst haN
      simp only [List.nil_append]
      rw [trimWs_ws_prefix_absorb run b hrun]
    · by_cases hbN : b = []
      · subst hbN
        rw [List.append_nil, List.append_nil]
        obtain ⟨ca, hca⟩ := Option.isSome_iff_exists.mp (List.getLast?_isSome.mpr haN)
        have hcaw : isWs ca = false := by
          rw [hca] at ha
          simpa [noWsEdge] using ha
        rw [trimWs_ws_suffix_absorb a run hrun ca hca hcaw]
      · obtain ⟨ca, hca⟩ := Option.isSome_iff_exists.mp (List.getLast?_isSome.mpr haN)
        have hcaw : isWs ca = false := by
          rw [hca] at ha
          simpa [noWsEdge] using ha
        obtain ⟨cb, hcb⟩ : ∃ cb, b.head? = some cb := by
          cases b with
          | nil => exact absurd rfl hbN
          | cons b0 bs => exact ⟨b0, rfl⟩
        have hcbw : isWs cb = false := by
          rw [hcb] at hb
          simpa [noWsEdge] using hb
        rw [trimWs_split a run b ca hca hcaw cb hcb hcbw]
        rw [trimWs_split_pair a b ca hca hcaw cb hcb hcbw]
        refine collapseWs_fusion _ run _ ?_ hrun h2 ?_
        · have hneA : a.dropWhile isWs ≠ [] := by
            rw [Ne, List.dropWhile_eq_nil_iff]
            intro hall
            rw [hall ca (getLast?_mem_self a ca hca)] at hcaw
            exact absurd hcaw (by simp)
          rw [dropWhile_getLast_eq isWs a hneA, hca]
          simpa [noWsEdge] using hcaw
        · rw [List.head?_reverse]
          have hmemBrev : cb ∈ b.reverse := by
            rw [List.mem_reverse]
            cases b with
            | nil => exact absurd rfl hbN
            | cons b0 bs =>
              have hb0 : b0 = cb := by simpa using hcb
              exact hb0 ▸ List.mem_cons_self _ _
          have hneB : b.reverse.dropWhile isWs ≠ [] := by
            rw [Ne, List.dropWhile_eq_nil_iff]
            intro hall
            rw [hall cb hmemBrev] at hcbw
            exact absurd hcbw (by simp)
          rw [dropWhile_getLast_eq isWs b.reverse hneB, List.getLast?_reverse, hcb]
          simpa [noWsEdge] using hcbw

/-- Witness for C2: the stage output for a padded input has
non-whitespace edges, and inserting the run space + em-space between
x and y leaves the stage output unchanged (the segments fuse). -/
theorem whitespace_run_deletion_witness :
    noWsEdge ((afterWs (defaultF [[104]]) [32, 120, 32]).head?) = true ∧
      afterWs (defaultF [[104]]) [120, 32, 0x2003, 121] =
        afterWs (defaultF [[104]]) [120, 121] :=
  ⟨((whitespace_run_deletion (defaultF [[104]]) rfl).1 [32, 120, 32]).1,
   (whitespace_run_deletion (defaultF [[104]]) rfl).2 [120] [32, 0x2003] [121]
     (by decide) (by decide) (by decide) (by decide)⟩
